import Mathlib

/-!
Verification of the slack-sidebar-organiser core (organize.ts) against its
natural-language specification.

JavaScript strings are modelled as Lean `String`; the string operations the
source uses (split on '-', join with '-', startsWith, endsWith, includes)
are given executable definitions over the underlying character list
(`String.data`), matching the JavaScript semantics of
`String.prototype.split`, `Array.prototype.join`, `startsWith`, `endsWith`
and `includes`.
-/

namespace SidebarOrganiser

/-- JavaScript `name.split('-')` on the character list: splits into the
('-'-free) segments between separators; the empty string yields one empty
segment, and consecutive separators yield empty segments. -/
def splitDash : List Char → List (List Char)
  | [] => [[]]
  | c :: cs =>
    match splitDash cs with
    | [] => [[]]
    | seg :: segs => if c = '-' then [] :: seg :: segs else (c :: seg) :: segs

/-- JavaScript `parts.join('-')`: interleaves the segments with '-'. -/
def joinDash : List (List Char) → List Char
  | [] => []
  | [seg] => seg
  | seg :: segs => seg ++ '-' :: joinDash segs

/-- JavaScript `haystack.includes(needle)` (substring test). -/
def hasSubstr : List Char → List Char → Bool
  | hay, needle =>
    if needle.isPrefixOf hay then true
    else
      match hay with
      | [] => false
      | _ :: rest => hasSubstr rest needle

-- ============================================================================
-- Sidebar rules (organize.ts, SidebarRule and subclasses)
-- ============================================================================

/-- The polymorphic rule type of organize.ts. The first three variants
(prefixRule, suffixRule, keywordRule) are transcribed from
PrefixSidebarRule, SuffixSidebarRule and KeywordSidebarRule in
src/organize.ts. The exactRule variant is Modelled from the spec:
ExactSidebarRule is absent from src/ (only its tests are present);
spec section 4.1 gives `Exact: applies(name) = name == value`.
Each rule carries the destination section id and its matching value; the
value is an `Option String` because the TypeScript field is populated from
a JSON record and is `undefined` when the field is missing. -/
inductive SidebarRule where
  | prefixRule (sidebarSectionId : String) (value : Option String)
  | suffixRule (sidebarSectionId : String) (value : Option String)
  | keywordRule (sidebarSectionId : String) (value : Option String)
  | exactRule (sidebarSectionId : String) (value : Option String)
deriving DecidableEq, Repr

/-- Destination section id carried by a rule. -/
def SidebarRule.sidebarSectionId : SidebarRule → String
  | .prefixRule sid _ => sid
  | .suffixRule sid _ => sid
  | .keywordRule sid _ => sid
  | .exactRule sid _ => sid

/-- The applies(channelName) predicate of each rule variant.
JavaScript coerces an `undefined` argument of startsWith / endsWith /
includes to the string "undefined"; strict equality (===) against
`undefined` is simply false, so the exact variant compares options. -/
def SidebarRule.applies : SidebarRule → String → Bool
  | .prefixRule _ v, channelName =>
      ((v.getD "undefined").data).isPrefixOf channelName.data
  | .suffixRule _ v, channelName =>
      ((v.getD "undefined").data).isSuffixOf channelName.data
  | .keywordRule _ v, channelName =>
      hasSubstr channelName.data (v.getD "undefined").data
  | .exactRule _ v, channelName => v == some channelName

/-- Untyped rule record as read from the rules file (RuleJSON). The
type-specific fields are optional, as in the JSON. The `prefix` and
`name` fields are called `pre` and `nm` here. -/
structure RuleJSON where
  type : String
  pre : Option String := none
  suf : Option String := none
  keyword : Option String := none
  nm : Option String := none
deriving DecidableEq, Repr

/-- Modelled from the spec: SidebarRule.fromJSON with the exact variant is
absent from src/ (src/organize.ts has only the three-variant version;
the four-variant version is exercised by the tests). Spec section 4.1: a
`type` discriminator selects the variant, the type-specific field is read
positionally, and unknown type values fail construction with an
"unknown rule type" error carrying the offending type string. -/
def SidebarRule.fromJSON (sidebarSectionId : String) (json : RuleJSON) :
    Except String SidebarRule :=
  match json.type with
  | "prefix" => .ok (.prefixRule sidebarSectionId json.pre)
  | "suffix" => .ok (.suffixRule sidebarSectionId json.suf)
  | "keyword" => .ok (.keywordRule sidebarSectionId json.keyword)
  | "exact" => .ok (.exactRule sidebarSectionId json.nm)
  | t => .error ("Unknown rule type: " ++ t)

-- ============================================================================
-- First-match rule resolution (organize.ts, main: sidebarRules.find(...))
-- ============================================================================

/-- First-match rule resolution from main:
`sidebarRules.find(r => r.applies(channel.name))`. -/
def resolveRule (sidebarRules : List SidebarRule) (channelName : String) :
    Option SidebarRule :=
  sidebarRules.find? (fun r => r.applies channelName)

-- ============================================================================
-- Pattern miner (organize.ts, getPrefixes / getSuffixes)
-- ============================================================================

/-- JavaScript Map lookup: `m.get(k)`. -/
def mapGet (m : List (String × Nat)) (k : String) : Option Nat :=
  (m.find? (fun kv => kv.1 == k)).map (fun kv => kv.2)

/-- JavaScript Map update: `m.set(k, v)` keeps the key's original insertion
position when present and appends otherwise. -/
def mapSet (m : List (String × Nat)) (k : String) (v : Nat) : List (String × Nat) :=
  match m with
  | [] => [(k, v)]
  | kv :: rest => if kv.1 == k then (k, v) :: rest else kv :: mapSet rest k v

/-- The per-name candidate keys of getPrefixes: split the name on '-', cut
off the last segment, keep only the first 4 segments, and form every
leading run joined back with '-'. -/
def prefixKeysOf (name : String) : List String :=
  let parts := splitDash name.data
  let partsWithoutLast := parts.dropLast
  let firstFourParts := partsWithoutLast.take 4
  (List.range firstFourParts.length).map
    (fun i => String.mk (joinDash (firstFourParts.take (i + 1))))

/-- The increment step of getPrefixes:
`prefixCandidates.set(prefix, (prefixCandidates.get(prefix) || 0) + 1)`. -/
def mapInc (m : List (String × Nat)) (k : String) : List (String × Nat) :=
  mapSet m k ((mapGet m k).getD 0 + 1)

/-- The per-name inner loop of getPrefixes: count every leading run of the
name's candidate key list. -/
def addNameKeys (m : List (String × Nat)) (name : String) : List (String × Nat) :=
  (prefixKeysOf name).foldl mapInc m

/-- organize.ts getPrefixes: counts, per candidate key, how many names
contribute it (the source's nested loop over names and leading runs). -/
def getPrefixes (channelNames : List String) : List (String × Nat) :=
  channelNames.foldl addNameKeys []

/-- JavaScript `name.split('-').reverse().join('-')`, used by getSuffixes
both to mirror each channel name and to reverse result keys back. -/
def mirrorName (name : String) : String :=
  String.mk (joinDash ((splitDash name.data).reverse))

/-- organize.ts getSuffixes: reverse the channel names (segment-wise), get
prefixes, then reverse the resulting keys back. -/
def getSuffixes (channelNames : List String) : List (String × Nat) :=
  let reversedNames := channelNames.map mirrorName
  let prefixes := getPrefixes reversedNames
  prefixes.foldl (fun m kv => mapSet m (mirrorName kv.1) kv.2) []

-- ============================================================================
-- Sidebar sections and moves
-- ============================================================================

/-- SidebarSection from organize.ts: id, display name and the snapshot of
member channel ids. -/
structure SidebarSection where
  id : String
  name : String
  channelIds : List String
deriving DecidableEq, Repr

/-- SidebarSection.includesChannel: membership of a channel id in the
section snapshot. -/
def SidebarSection.includesChannel (s : SidebarSection) (channelId : String) : Bool :=
  s.channelIds.contains channelId

/-- Modelled from the spec: SECTION_CHANNEL_LIMIT is absent from src/ (it
is exported by the newer organize.ts and only referenced by its tests);
the spec fixes the capacity limit at 500. -/
def SECTION_CHANNEL_LIMIT : Nat := 500

/-- Modelled from the spec: SidebarSection.availableCapacity is absent from
src/ (only its tests are present); spec section 4.3 gives
`availableCapacity() = max(0, CAPACITY_LIMIT - memberCount)`, which on Nat
is truncated subtraction. -/
def SidebarSection.availableCapacity (s : SidebarSection) : Nat :=
  SECTION_CHANNEL_LIMIT - s.channelIds.length

/-- A planned relocation (SidebarMove in organize.ts). The null
fromSidebarSectionId of the source is an `Option`. -/
structure SidebarMove where
  channelId : String
  fromSidebarSectionId : Option String
  toSidebarSectionId : String
deriving DecidableEq, Repr

/-- A channel as consumed by the planner: its id and name. -/
structure Channel where
  id : String
  name : String
deriving DecidableEq, Repr

-- ============================================================================
-- Move planner (organize.ts, main: the "Calculate moves" loop)
-- ============================================================================

/-- getSidebarSection from main: first section with the given id. -/
def getSidebarSection (sidebarSections : List SidebarSection) (id : String) :
    Option SidebarSection :=
  sidebarSections.find? (fun s => s.id == id)

/-- JavaScript `x || null` applied to `fromSidebarSection?.id`: the empty
string is falsy, so it coerces to null exactly like undefined does. -/
def jsIdOrNull (o : Option String) : Option String :=
  match o with
  | some s => if s = "" then none else some s
  | none => none

/-- The planning pass of main (the "Calculate moves" loop): for each
channel, resolve the first applicable rule, skip when none applies, when
the rule's destination section is unknown, or when the destination already
contains the channel; otherwise emit a move recording the first section
currently containing the channel (or null). -/
def planMoves (sidebarRules : List SidebarRule) (sidebarSections : List SidebarSection) :
    List Channel → List SidebarMove
  | [] => []
  | c :: cs =>
    let rest := planMoves sidebarRules sidebarSections cs
    match resolveRule sidebarRules c.name with
    | none => rest
    | some rule =>
      match getSidebarSection sidebarSections rule.sidebarSectionId with
      | none => rest
      | some toSidebarSection =>
        if toSidebarSection.includesChannel c.id then rest
        else
          let fromSidebarSection :=
            sidebarSections.find? (fun s => s.includesChannel c.id)
          { channelId := c.id,
            fromSidebarSectionId := jsIdOrNull (fromSidebarSection.map SidebarSection.id),
            toSidebarSectionId := toSidebarSection.id } :: rest

-- ============================================================================
-- Execution phase of main (dry run vs --write, and the move loop)
-- ============================================================================

/-- A call to the relocation collaborator (SlackClient.sidebarMove with its
channel id, destination section id and optional source section id). -/
structure RelocationCall where
  channelId : String
  toSidebarSectionId : String
  fromSidebarSectionId : Option String
deriving DecidableEq, Repr

/-- The relocation calls issued by main after planning: without the
--write flag, main prints the dry-run report and exits before the move
loop, so no relocation call is made; with it, the loop calls
client.sidebarMove once per planned move, in order. -/
def mainRelocationCalls (writeChanges : Bool) (sidebarMoves : List SidebarMove) :
    List RelocationCall :=
  if !writeChanges then []
  else
    sidebarMoves.map (fun m =>
      { channelId := m.channelId,
        toSidebarSectionId := m.toSidebarSectionId,
        fromSidebarSectionId := m.fromSidebarSectionId })

/-- External sidebar state evolution: an arbitrary per-call transition
applied over the issued calls in order. Used to state that a run issuing
no calls leaves the external state unchanged. -/
def applyCalls {State : Type} (step : State → RelocationCall → State)
    (calls : List RelocationCall) (st : State) : State :=
  calls.foldl step st

/-- The execution loop of main (the "Actually move channels" loop),
with the collaborator's acknowledgement abstracted as a function from the
move to the ok flag of its response. Returns the trace of attempted moves
in order, the recorded successes and the recorded failures. -/
def executeMoves (okFlag : SidebarMove → Bool) :
    List SidebarMove → List SidebarMove × List SidebarMove × List SidebarMove
  | [] => ([], [], [])
  | m :: ms =>
    let rest := executeMoves okFlag ms
    (m :: rest.1,
     if okFlag m then m :: rest.2.1 else rest.2.1,
     if okFlag m then rest.2.2 else m :: rest.2.2)

-- ============================================================================
-- Rate limiter (organize.ts, RateLimiter.wait)
-- ============================================================================

/-- The pruning step of RateLimiter.wait:
`this.timestamps.filter(t => now - t < this.intervalMs)`. -/
def pruneTimestamps (timestamps : List Nat) (now intervalMs : Nat) : List Nat :=
  timestamps.filter (fun t => now - t < intervalMs)

/-- The recursion of RateLimiter.wait after the initial pruning: if at
least `limit` timestamps remain in the window, sleep until the oldest
retained timestamp (`timestamps[0]`) expires and re-evaluate (pruning at
the wake-up time); otherwise record the current time and admit. The first
component of the result is the admission time, the second the new
timestamp list. The argument list is pruned with respect to `now`. The
empty-list fallback is reachable only with `limit = 0`, where the source
loops forever. -/
def waitGo (limit intervalMs : Nat) (ts : List Nat) (now : Nat) : Nat × List Nat :=
  if ts.length < limit then (now, ts ++ [now])
  else
    match ts with
    | [] => (now, [now])
    | t :: rest =>
      waitGo limit intervalMs
        (pruneTimestamps (t :: rest) (t + intervalMs) intervalMs) (t + intervalMs)
  termination_by ts.length
  decreasing_by
    have ht : ¬ (t + intervalMs - t < intervalMs) := by omega
    simp only [pruneTimestamps, List.filter_cons, decide_eq_true_eq, if_neg ht]
    exact Nat.lt_succ_of_le (List.length_filter_le _ _)

/-- RateLimiter.wait: prune the recorded timestamps, then run the
admit-or-sleep loop. Takes the limiter parameters, the recorded
timestamps and the current time; returns the admission time and the new
timestamp list. -/
def rateLimiterWait (limit intervalMs : Nat) (timestamps : List Nat) (now : Nat) :
    Nat × List Nat :=
  waitGo limit intervalMs (pruneTimestamps timestamps now intervalMs) now

/-- Queued concurrent callers of wait, modelled after Node's FIFO timer
queue: callers are serviced in the order they began waiting, each
effectively re-checking no earlier than the previous caller's admission.
Returns the admission times in service order. -/
def serveQueue (limit intervalMs : Nat) :
    List Nat → List Nat → Nat → List Nat
  | _, [], _ => []
  | ts, a :: rest, clock =>
    let r := rateLimiterWait limit intervalMs ts (max a clock)
    r.1 :: serveQueue limit intervalMs r.2 rest r.1

-- ============================================================================
-- Overflow resolver (findOverflowSections)
-- ============================================================================

/-- Numeric value of a run of decimal digits (parseInt on the captured
digit group). -/
def digitsVal (ds : List Char) : Nat :=
  ds.foldl (fun acc c => acc * 10 + (c.toNat - 48)) 0

/-- Modelled from the spec: findOverflowSections is absent from src/ (only
its tests are present). Spec section 4.3: a section name matches when it
is the literal base name (escaped for matching) followed by a space, an
open parenthesis, one or more decimal digits and a close parenthesis, with
nothing else; this parser returns the parsed numeric suffix on a match. -/
def parseOverflowNumber (baseName name : String) : Option Nat :=
  let pre := baseName.data ++ [' ', '(']
  if pre.isPrefixOf name.data then
    let rest := (name.data).drop pre.length
    if rest.getLast? = some ')' then
      let ds := rest.dropLast
      if ds ≠ [] ∧ ds.all Char.isDigit then some (digitsVal ds) else none
    else none
  else none

/-- Insertion step of the key-ascending sort used by
findOverflowSections. -/
def insertByKey (key : SidebarSection → Nat) (s : SidebarSection) :
    List SidebarSection → List SidebarSection
  | [] => [s]
  | t :: ts => if key s ≤ key t then s :: t :: ts else t :: insertByKey key s ts

/-- Key-ascending insertion sort (the model of the source's
sort-by-numeric-suffix comparator). -/
def sortByKey (key : SidebarSection → Nat) : List SidebarSection → List SidebarSection
  | [] => []
  | s :: ss => insertByKey key s (sortByKey key ss)

/-- Modelled from the spec: findOverflowSections is absent from src/ (only
its tests are present). Spec section 4.3: keep the sections whose name
matches "<baseName> (<digits>)" exactly, ordered ascending by the parsed
numeric suffix. -/
def findOverflowSections (baseName : String) (sections : List SidebarSection) :
    List SidebarSection :=
  sortByKey (fun s => (parseOverflowNumber baseName s.name).getD 0)
    (sections.filter (fun s => (parseOverflowNumber baseName s.name).isSome))

-- ============================================================================
-- Distributor (distributeMovesAcrossSections)
-- ============================================================================

/-- Modelled from the spec: distributeMovesAcrossSections is absent from
src/ (only its tests are present). Spec section 4.5, the per-move step:
scan the candidate sections in order (primary first, then overflow
ascending) and assign the move to the first one whose running capacity
counter is positive, decrementing it. Candidates are paired with their
running counters; on success the result carries the index of the chosen
candidate, its section id and the updated counters. -/
def assignMove : List (SidebarSection × Nat) →
    Option (Nat × String × List (SidebarSection × Nat))
  | [] => none
  | (s, cap) :: rest =>
    if 0 < cap then some (0, s.id, (s, cap - 1) :: rest)
    else (assignMove rest).map (fun r => (r.1 + 1, r.2.1, (s, cap) :: r.2.2))

/-- Modelled from the spec: the Distributor's loop (spec section 4.5),
instrumented with an assignment trace. Processes the moves in input order
against the running capacity counters; a move with no available candidate
is left unchanged (tag none). Returns the rewritten moves, the per-move
tag (index of the assigned candidate, if any) and the final counters. -/
def distributeFull : List SidebarMove → List (SidebarSection × Nat) →
    List SidebarMove × List (Option Nat) × List (SidebarSection × Nat)
  | [], caps => ([], [], caps)
  | m :: ms, caps =>
    match assignMove caps with
    | none =>
      let r := distributeFull ms caps
      (m :: r.1, none :: r.2.1, r.2.2)
    | some (j, sid, caps2) =>
      let r := distributeFull ms caps2
      ({ m with toSidebarSectionId := sid } :: r.1, some j :: r.2.1, r.2.2)

/-- Modelled from the spec: distributeMovesAcrossSections is absent from
src/ (only its tests are present). Spec section 4.5: initialize one
running counter per candidate section from availableCapacity(), then
first-fit each move in input order; the source mutates the moves in
place, modelled here by returning the rewritten move list. -/
def distributeMovesAcrossSections (moves : List SidebarMove)
    (sections : List SidebarSection) : List SidebarMove :=
  (distributeFull moves (sections.map (fun s => (s, s.availableCapacity)))).1

-- ============================================================================
-- Helper lemmas
-- ============================================================================

lemma find?_eq_some_split {α : Type} (p : α → Bool) (l : List α) (a : α) :
    l.find? p = some a ↔
      ∃ l₁ l₂, l = l₁ ++ a :: l₂ ∧ p a = true ∧ ∀ x ∈ l₁, p x = false := by
  induction l with
  | nil => simp
  | cons b bs ih =>
    cases hb : p b with
    | true =>
      rw [List.find?_cons_of_pos _ hb]
      constructor
      · intro h
        obtain rfl : b = a := Option.some.inj h
        exact ⟨[], bs, rfl, hb, by simp⟩
      · rintro ⟨l₁, l₂, heq, hpa, hall⟩
        cases l₁ with
        | nil =>
          simp only [List.nil_append, List.cons.injEq] at heq
          rw [heq.1]
        | cons c cs =>
          simp only [List.cons_append, List.cons.injEq] at heq
          have hc : p b = false := heq.1 ▸ hall c (List.mem_cons_self c cs)
          rw [hc] at hb
          cases hb
    | false =>
      rw [List.find?_cons_of_neg _ (by simp [hb])]
      rw [ih]
      constructor
      · rintro ⟨l₁, l₂, rfl, hpa, hall⟩
        refine ⟨b :: l₁, l₂, rfl, hpa, ?_⟩
        intro x hx
        rcases List.mem_cons.mp hx with rfl | hx
        · exact hb
        · exact hall x hx
      · rintro ⟨l₁, l₂, heq, hpa, hall⟩
        cases l₁ with
        | nil =>
          simp only [List.nil_append, List.cons.injEq] at heq
          rw [heq.1, hpa] at hb
          cases hb
        | cons c cs =>
          simp only [List.cons_append, List.cons.injEq] at heq
          obtain ⟨hcb, htl⟩ := heq
          exact ⟨cs, l₂, htl, hpa,
            fun x hx => hall x (List.mem_cons_of_mem c hx)⟩

-- ============================================================================
-- C2: dry run issues no relocation calls
-- ============================================================================

/-- C2: a run invoked without the --write flag produces the plan-only
report and never invokes the relocation collaborator
(SlackClient.sidebarMove): the list of relocation calls main issues is
empty, so the external sidebar state, however each call would act on it,
is left unchanged. -/
theorem dry_run_no_relocation :
    ∀ (sidebarMoves : List SidebarMove),
      mainRelocationCalls false sidebarMoves = [] ∧
      ∀ {State : Type} (step : State → RelocationCall → State) (st : State),
        applyCalls step (mainRelocationCalls false sidebarMoves) st = st := by
  intro sidebarMoves
  refine ⟨rfl, ?_⟩
  intro State step st
  simp [mainRelocationCalls, applyCalls]

-- ============================================================================
-- C3: first-match rule resolution
-- ============================================================================

/-- C3: rule resolution is a stable sequential first-match scan: it
returns some rule exactly when the rule list splits as earlier rules that
all fail, the returned rule which applies, and a remainder; it returns
none exactly when no rule applies; and for a two-rule list whose first
rule applies, the result is always that first rule (so the name resolves
to R1's destination even when R2 also applies). -/
theorem rule_resolution_first_match :
    (∀ (rules : List SidebarRule) (name : String) (r : SidebarRule),
        resolveRule rules name = some r ↔
          ∃ l₁ l₂, rules = l₁ ++ r :: l₂ ∧ r.applies name = true ∧
            ∀ r2 ∈ l₁, r2.applies name = false) ∧
    (∀ (rules : List SidebarRule) (name : String),
        resolveRule rules name = none ↔ ∀ r ∈ rules, r.applies name = false) ∧
    (∀ (R1 R2 : SidebarRule) (name : String), R1.applies name = true →
        resolveRule [R1, R2] name = some R1) := by
  refine ⟨?_, ?_, ?_⟩
  · intro rules name r
    exact find?_eq_some_split (fun r => r.applies name) rules r
  · intro rules name
    rw [resolveRule, List.find?_eq_none]
    constructor
    · intro h r hr
      have := h r hr
      simpa using this
    · intro h r hr
      simp [h r hr]
  · intro R1 R2 name h
    simp only [resolveRule]
    exact List.find?_cons_of_pos _ h

/-- Witness for C3 at a concrete two-rule list where both rules apply. -/
theorem rule_resolution_first_match_witness :
    resolveRule [SidebarRule.prefixRule "a" (some "c"),
                 SidebarRule.prefixRule "b" (some "ca")] "cat" =
      some (SidebarRule.prefixRule "a" (some "c")) :=
  rule_resolution_first_match.2.2 _ _ "cat" (by decide)

-- ============================================================================
-- C4: rule construction from an untyped record
-- ============================================================================

/-- C4: SidebarRule.fromJSON selects among the four variants by the type
discriminator; the exact variant's applies holds exactly on equality with
the configured value; and every unknown type value fails construction
with an "unknown rule type" error carrying the offending type string. -/
theorem fromJSON_variant_selection :
    (∀ (sid : String) (j : RuleJSON), j.type = "prefix" →
        SidebarRule.fromJSON sid j = .ok (.prefixRule sid j.pre)) ∧
    (∀ (sid : String) (j : RuleJSON), j.type = "suffix" →
        SidebarRule.fromJSON sid j = .ok (.suffixRule sid j.suf)) ∧
    (∀ (sid : String) (j : RuleJSON), j.type = "keyword" →
        SidebarRule.fromJSON sid j = .ok (.keywordRule sid j.keyword)) ∧
    (∀ (sid : String) (j : RuleJSON), j.type = "exact" →
        SidebarRule.fromJSON sid j = .ok (.exactRule sid j.nm)) ∧
    (∀ (sid v name : String),
        (SidebarRule.exactRule sid (some v)).applies name = true ↔ name = v) ∧
    (∀ (sid : String) (j : RuleJSON),
        j.type ∉ (["prefix", "suffix", "keyword", "exact"] : List String) →
        SidebarRule.fromJSON sid j = .error ("Unknown rule type: " ++ j.type)) := by
  refine ⟨?_, ?_, ?_, ?_, ?_, ?_⟩
  · intro sid j h
    obtain ⟨ty, pre, suf, kw, nm⟩ := j
    cases h
    rfl
  · intro sid j h
    obtain ⟨ty, pre, suf, kw, nm⟩ := j
    cases h
    rfl
  · intro sid j h
    obtain ⟨ty, pre, suf, kw, nm⟩ := j
    cases h
    rfl
  · intro sid j h
    obtain ⟨ty, pre, suf, kw, nm⟩ := j
    cases h
    rfl
  · intro sid v name
    simp only [SidebarRule.applies, beq_iff_eq, Option.some.injEq]
    exact eq_comm
  · intro sid j h
    obtain ⟨ty, pre, suf, kw, nm⟩ := j
    simp only [SidebarRule.fromJSON] at h ⊢
    split
    · exact (h (by decide)).elim
    · exact (h (by decide)).elim
    · exact (h (by decide)).elim
    · exact (h (by decide)).elim
    · rfl

/-- Witness for C4: an unknown type value fails with the error carrying
that type string, and an exact record constructs the exact variant. -/
theorem fromJSON_variant_selection_witness :
    SidebarRule.fromJSON "s1" { type := "regex" } =
      .error ("Unknown rule type: " ++ "regex") ∧
    SidebarRule.fromJSON "s1" { type := "exact", nm := some "general" } =
      .ok (.exactRule "s1" (some "general")) :=
  ⟨fromJSON_variant_selection.2.2.2.2.2 "s1" _ (by decide),
   fromJSON_variant_selection.2.2.2.1 "s1" _ rfl⟩

-- ============================================================================
-- C9: the executor attempts every move once and classifies it
-- ============================================================================

/-- C9: the executor attempts each planned move exactly once, sequentially
in list order (the attempt trace is the move list itself); every attempted
move is classified as exactly one of success or failure (successes are the
moves the collaborator acknowledged, failures the rest, each failure
recorded as the full move with its channel id and from/to section ids);
and recorded successes plus recorded failures account for every planned
move. -/
theorem executor_classifies_each_move :
    ∀ (okFlag : SidebarMove → Bool) (moves : List SidebarMove),
      (executeMoves okFlag moves).1 = moves ∧
      (executeMoves okFlag moves).2.1 = moves.filter (fun m => okFlag m) ∧
      (executeMoves okFlag moves).2.2 = moves.filter (fun m => !okFlag m) ∧
      (executeMoves okFlag moves).2.1.length + (executeMoves okFlag moves).2.2.length
        = moves.length := by
  intro okFlag moves
  induction moves with
  | nil => simp [executeMoves]
  | cons m ms ih =>
    obtain ⟨ih1, ih2, ih3, ih4⟩ := ih
    refine ⟨?_, ?_, ?_, ?_⟩
    · simp [executeMoves, ih1]
    · by_cases h : okFlag m = true <;>
        simp [executeMoves, h, ih2, List.filter_cons]
    · by_cases h : okFlag m = true <;>
        simp [executeMoves, h, ih3, List.filter_cons]
    · by_cases h : okFlag m = true <;> simp [executeMoves, h] <;> omega

-- ============================================================================
-- C7: prefix mining
-- ============================================================================

lemma splitDash_of_not_mem (s : List Char) (h : '-' ∉ s) : splitDash s = [s] := by
  induction s with
  | nil => rfl
  | cons c cs ih =>
    have hc : ¬ c = '-' := fun hc => h (hc ▸ List.mem_cons_self c cs)
    have ihs := ih (fun hm => h (List.mem_cons_of_mem c hm))
    simp [splitDash, ihs, hc]

lemma addNameKeys_of_no_dash (m : List (String × Nat)) (name : String)
    (h : '-' ∉ name.data) : addNameKeys m name = m := by
  simp [addNameKeys, prefixKeysOf, splitDash_of_not_mem _ h]

/-- C7: getPrefixes on the spec's example yields exactly the counts
customer 3, project 2, some 1, some-other 1 (listed in first-insertion
order); a name with no separator contributes nothing to the counts; and
consecutive separators contribute an empty segment that still counts
(yielding the key "test-"). -/
theorem getPrefixes_counts :
    getPrefixes ["project-alpha", "project-beta", "customer-a", "customer-b",
                 "customer-c", "some-other-channel"] =
      [("project", 2), ("customer", 3), ("some", 1), ("some-other", 1)] ∧
    (∀ (names : List String) (name : String), '-' ∉ name.data →
        getPrefixes (names ++ [name]) = getPrefixes names) ∧
    getPrefixes ["test--channel"] = [("test", 1), ("test-", 1)] := by
  refine ⟨by decide, ?_, by decide⟩
  intro names name h
  simp [getPrefixes, List.foldl_append, addNameKeys_of_no_dash _ _ h]

/-- Witness for C7: the separator-free name "something" contributes no
prefix counts. -/
theorem getPrefixes_counts_witness :
    getPrefixes (["customer-a"] ++ ["something"]) = getPrefixes ["customer-a"] :=
  getPrefixes_counts.2.1 ["customer-a"] "something" (by decide)

-- ============================================================================
-- C8: suffix mining is mirrored prefix mining
-- ============================================================================

lemma splitDash_shape (s : List Char) : ∃ seg segs, splitDash s = seg :: segs := by
  cases s with
  | nil => exact ⟨[], [], rfl⟩
  | cons c cs =>
    cases h : splitDash cs with
    | nil => exact ⟨[], [], by simp [splitDash, h]⟩
    | cons seg segs =>
      by_cases hc : c = '-'
      · exact ⟨[], seg :: segs, by simp [splitDash, h, hc]⟩
      · exact ⟨c :: seg, segs, by simp [splitDash, h, hc]⟩

lemma joinDash_cons_cons (c : Char) (seg : List Char) (segs : List (List Char)) :
    joinDash ((c :: seg) :: segs) = c :: joinDash (seg :: segs) := by
  cases segs <;> simp [joinDash]

lemma joinDash_splitDash (s : List Char) : joinDash (splitDash s) = s := by
  induction s with
  | nil => rfl
  | cons c cs ih =>
    obtain ⟨seg, segs, h⟩ := splitDash_shape cs
    rw [h] at ih
    by_cases hc : c = '-'
    · subst hc
      simp only [splitDash, h, if_pos rfl]
      simpa [joinDash] using ih
    · simp only [splitDash, h, if_neg hc]
      rw [joinDash_cons_cons, ih]

lemma not_dash_of_mem_splitDash (s : List Char) :
    ∀ seg ∈ splitDash s, '-' ∉ seg := by
  induction s with
  | nil =>
    intro seg hm
    simp only [splitDash, List.mem_singleton] at hm
    simp [hm]
  | cons c cs ih =>
    obtain ⟨seg0, segs0, h⟩ := splitDash_shape cs
    intro seg hm
    by_cases hc : c = '-'
    · have hsplit : splitDash (c :: cs) = [] :: seg0 :: segs0 := by
        simp [splitDash, h, hc]
      rw [hsplit] at hm
      rcases List.mem_cons.mp hm with rfl | hm2
      · simp
      · exact ih seg (h ▸ hm2)
    · have hsplit : splitDash (c :: cs) = (c :: seg0) :: segs0 := by
        simp [splitDash, h, hc]
      rw [hsplit] at hm
      rcases List.mem_cons.mp hm with rfl | hm2
      · intro hd
        rcases List.mem_cons.mp hd with hd1 | hd2
        · exact hc hd1.symm
        · exact ih seg0 (h ▸ List.mem_cons_self seg0 segs0) hd2
      · exact ih seg (h ▸ List.mem_cons_of_mem seg0 hm2)

lemma splitDash_append_dash (seg rest : List Char) (h : '-' ∉ seg) :
    splitDash (seg ++ '-' :: rest) = seg :: splitDash rest := by
  induction seg with
  | nil =>
    obtain ⟨s0, ss0, hr⟩ := splitDash_shape rest
    simp [splitDash, hr]
  | cons c cstail ih =>
    have hc : ¬ c = '-' := fun hc => h (hc ▸ List.mem_cons_self c cstail)
    have ih2 := ih (fun hm => h (List.mem_cons_of_mem c hm))
    simp [splitDash, ih2, hc]

lemma splitDash_joinDash (l : List (List Char)) (h1 : l ≠ [])
    (h2 : ∀ seg ∈ l, '-' ∉ seg) : splitDash (joinDash l) = l := by
  induction l with
  | nil => exact (h1 rfl).elim
  | cons seg segs ih =>
    cases segs with
    | nil =>
      simp only [joinDash]
      exact splitDash_of_not_mem seg (h2 seg (List.mem_cons_self seg []))
    | cons t ts =>
      have hjoin : joinDash (seg :: t :: ts) = seg ++ '-' :: joinDash (t :: ts) := rfl
      rw [hjoin, splitDash_append_dash seg _ (h2 seg (List.mem_cons_self _ _)),
        ih (List.cons_ne_nil t ts) (fun x hx => h2 x (List.mem_cons_of_mem seg hx))]

lemma mirrorName_mirrorName (s : String) : mirrorName (mirrorName s) = s := by
  obtain ⟨sd⟩ := s
  have hd : (mirrorName ⟨sd⟩).data = joinDash ((splitDash sd).reverse) := rfl
  obtain ⟨seg, segs, hshape⟩ := splitDash_shape sd
  have hrevne : (splitDash sd).reverse ≠ [] := by
    rw [hshape]; simp
  have hrevdash : ∀ x ∈ (splitDash sd).reverse, '-' ∉ x := by
    intro x hx
    exact not_dash_of_mem_splitDash sd x (List.mem_reverse.mp hx)
  show String.mk (joinDash ((splitDash (mirrorName ⟨sd⟩).data).reverse)) = ⟨sd⟩
  rw [hd, splitDash_joinDash _ hrevne hrevdash, List.reverse_reverse,
    joinDash_splitDash]

lemma mapSet_of_not_mem (m : List (String × Nat)) (k : String) (v : Nat)
    (h : k ∉ m.map Prod.fst) : mapSet m k v = m ++ [(k, v)] := by
  induction m with
  | nil => rfl
  | cons kv rest ih =>
    simp only [List.map_cons, List.mem_cons] at h
    push_neg at h
    have hne : ¬ (kv.1 == k) = true := by simp [beq_iff_eq]; exact fun e => h.1 e.symm
    simp only [mapSet, if_neg hne, List.cons_append]
    rw [ih h.2]

lemma mapSet_keys_of_mem (m : List (String × Nat)) (k : String) (v : Nat)
    (h : k ∈ m.map Prod.fst) : (mapSet m k v).map Prod.fst = m.map Prod.fst := by
  induction m with
  | nil => simp at h
  | cons kv rest ih =>
    by_cases hk : (kv.1 == k) = true
    · have : kv.1 = k := by simpa [beq_iff_eq] using hk
      simp [mapSet, hk, this]
    · have hkne : kv.1 ≠ k := by simpa [beq_iff_eq] using hk
      have hmem : k ∈ rest.map Prod.fst := by
        have h' := h
        rw [List.map_cons] at h'
        rcases List.mem_cons.mp h' with h1 | h1
        · exact (hkne h1.symm).elim
        · exact h1
      simp [mapSet, hk, ih hmem]

lemma mapSet_keys_nodup (m : List (String × Nat)) (k : String) (v : Nat)
    (h : (m.map Prod.fst).Nodup) : ((mapSet m k v).map Prod.fst).Nodup := by
  by_cases hk : k ∈ m.map Prod.fst
  · rw [mapSet_keys_of_mem m k v hk]; exact h
  · rw [mapSet_of_not_mem m k v hk]
    simp only [List.map_append, List.map_cons, List.map_nil]
    rw [List.nodup_append]
    refine ⟨h, List.nodup_singleton _, ?_⟩
    intro a ha hb
    rw [List.mem_singleton] at hb
    exact hk (hb ▸ ha)

lemma foldl_mapInc_keys_nodup (ks : List String) :
    ∀ m, (m.map Prod.fst).Nodup → ((ks.foldl mapInc m).map Prod.fst).Nodup := by
  induction ks with
  | nil => intro m h; exact h
  | cons k rest ih =>
    intro m h
    exact ih (mapInc m k) (mapSet_keys_nodup m k _ h)

lemma getPrefixes_keys_nodup (channelNames : List String) :
    ((getPrefixes channelNames).map Prod.fst).Nodup := by
  suffices hgen : ∀ m, (m.map Prod.fst).Nodup →
      ((channelNames.foldl addNameKeys m).map Prod.fst).Nodup by
    exact hgen [] (by simp)
  induction channelNames with
  | nil => intro m h; exact h
  | cons n rest ih =>
    intro m h
    exact ih (addNameKeys m n) (foldl_mapInc_keys_nodup _ m h)

lemma foldl_mapSet_map (f : String → String) :
    ∀ (entries acc : List (String × Nat)),
      (acc.map Prod.fst ++ entries.map (fun kv => f kv.1)).Nodup →
      entries.foldl (fun m kv => mapSet m (f kv.1) kv.2) acc
        = acc ++ entries.map (fun kv => (f kv.1, kv.2)) := by
  intro entries
  induction entries with
  | nil => intro acc _; simp
  | cons kv rest ih =>
    intro acc h
    have hnotmem : f kv.1 ∉ acc.map Prod.fst := by
      intro hmem
      rcases List.nodup_append.mp (by simpa using h) with ⟨_, _, hdisj⟩
      exact hdisj hmem (by simp)
    simp only [List.foldl_cons]
    rw [mapSet_of_not_mem acc (f kv.1) kv.2 hnotmem]
    have hre : ((acc ++ [(f kv.1, kv.2)]).map Prod.fst ++
        rest.map (fun kv => f kv.1)).Nodup := by
      simp only [List.map_append, List.map_cons, List.map_nil]
      rw [List.append_assoc]
      simpa using h
    rw [ih (acc ++ [(f kv.1, kv.2)]) hre, List.append_assoc]
    rfl

/-- C8: getSuffixes is the mirror of getPrefixes: for every name list, it
equals getPrefixes applied to the segment-reversed names with each
resulting key reversed back, every key's count preserved (stated as the
entry-for-entry equality of the two maps). -/
theorem getSuffixes_is_mirrored_getPrefixes :
    ∀ (channelNames : List String),
      getSuffixes channelNames =
        (getPrefixes (channelNames.map mirrorName)).map
          (fun kv => (mirrorName kv.1, kv.2)) := by
  intro names
  have hnodup : ((getPrefixes (names.map mirrorName)).map Prod.fst).Nodup :=
    getPrefixes_keys_nodup _
  have hinj : Function.Injective mirrorName :=
    Function.LeftInverse.injective
      (g := mirrorName) (fun s => mirrorName_mirrorName s)
  have hkeys : ((getPrefixes (names.map mirrorName)).map
      (fun kv => mirrorName kv.1)).Nodup := by
    have : (getPrefixes (names.map mirrorName)).map (fun kv => mirrorName kv.1)
        = ((getPrefixes (names.map mirrorName)).map Prod.fst).map mirrorName := by
      rw [List.map_map]
      rfl
    rw [this]
    exact hnodup.map (fun a b hab => hinj hab)
  have := foldl_mapSet_map mirrorName (getPrefixes (names.map mirrorName)) []
    (by simpa using hkeys)
  simpa [getSuffixes] using this

-- ============================================================================
-- C10: invariants of planned moves
-- ============================================================================

/-- C10 (amended): every planned move's destination section (the planner's
resolved section, the first with that id) does not already contain the
channel; fromSidebarSectionId is the JavaScript `|| null` coercion of the
first containing section's id — the id when non-empty, null when no
section contains the channel or the containing section's id is the empty
string; and with distinct section ids a non-null source differs from the
destination. -/
theorem planner_move_invariants :
    ∀ (rules : List SidebarRule) (sections : List SidebarSection)
      (channels : List Channel), ∀ m ∈ planMoves rules sections channels,
      (∃ sec, getSidebarSection sections m.toSidebarSectionId = some sec ∧
          sec.includesChannel m.channelId = false) ∧
      m.fromSidebarSectionId =
        jsIdOrNull ((sections.find? (fun s => s.includesChannel m.channelId)).map
          SidebarSection.id) ∧
      ((sections.map SidebarSection.id).Nodup →
        ∀ fid, m.fromSidebarSectionId = some fid → fid ≠ m.toSidebarSectionId) := by
  intro rules sections channels
  induction channels with
  | nil => intro m hm; simp [planMoves] at hm
  | cons c cs ih =>
    intro m hm
    rw [planMoves] at hm
    cases hr : resolveRule rules c.name with
    | none =>
      simp only [hr] at hm
      exact ih m hm
    | some rule =>
      simp only [hr] at hm
      cases hts : getSidebarSection sections rule.sidebarSectionId with
      | none => simp only [hts] at hm; exact ih m hm
      | some toSection =>
        simp only [hts] at hm
        by_cases hinc : toSection.includesChannel c.id = true
        · rw [if_pos hinc] at hm
          exact ih m hm
        · have hincf : toSection.includesChannel c.id = false := by
            simpa using hinc
          rw [if_neg hinc] at hm
          rcases List.mem_cons.mp hm with rfl | hm2
          · have hid : toSection.id = rule.sidebarSectionId := by
              have := List.find?_some hts
              simpa [beq_iff_eq] using this
            refine ⟨⟨toSection, ?_, hincf⟩, rfl, ?_⟩
            · show getSidebarSection sections toSection.id = some toSection
              rw [hid]
              exact hts
            · intro hnodup fid hfid
              cases hfrom : sections.find? (fun s => s.includesChannel c.id) with
              | none =>
                rw [show (sections.find? fun s => s.includesChannel c.id) = none
                    from hfrom] at hfid
                simp [jsIdOrNull] at hfid
              | some fromSec =>
                rw [show (sections.find? fun s => s.includesChannel c.id) =
                    some fromSec from hfrom] at hfid
                simp only [Option.map_some', jsIdOrNull] at hfid
                by_cases he : fromSec.id = ""
                · rw [if_pos he] at hfid
                  cases hfid
                · rw [if_neg he] at hfid
                  obtain rfl : fromSec.id = fid := Option.some.inj hfid
                  intro heq
                  have hfmem := List.mem_of_find?_eq_some hfrom
                  have htmem := List.mem_of_find?_eq_some hts
                  have hsame : fromSec = toSection :=
                    List.inj_on_of_nodup_map hnodup hfmem htmem heq
                  have hfinc : fromSec.includesChannel c.id = true := by
                    have hf := List.find?_some hfrom
                    simpa using hf
                  rw [hsame, hincf] at hfinc
                  cases hfinc
          · exact ih m hm2

/-- Witness for C10 at a concrete snapshot producing one move. -/
theorem planner_move_invariants_witness :
    (∃ sec, getSidebarSection [⟨"s1", "A", ["c1"]⟩, ⟨"s2", "B", []⟩] "s2" = some sec ∧
        sec.includesChannel "c1" = false) ∧
    (some "s1" : Option String) =
      jsIdOrNull ((([⟨"s1", "A", ["c1"]⟩, ⟨"s2", "B", []⟩] :
          List SidebarSection).find? (fun s => s.includesChannel "c1")).map
        SidebarSection.id) ∧
    (((([⟨"s1", "A", ["c1"]⟩, ⟨"s2", "B", []⟩] : List SidebarSection)).map
        SidebarSection.id).Nodup →
      ∀ fid, (some "s1" : Option String) = some fid → fid ≠ "s2") := by
  have h := planner_move_invariants [SidebarRule.keywordRule "s2" (some "")]
    [⟨"s1", "A", ["c1"]⟩, ⟨"s2", "B", []⟩] [⟨"c1", "chan"⟩]
    { channelId := "c1", fromSidebarSectionId := some "s1",
      toSidebarSectionId := "s2" } (by decide)
  exact h

/-- Counterexample to C10 as stated: with a containing section whose id is
the empty string, the planner emits a move whose fromSidebarSectionId is
null even though a snapshot section does contain the channel (JavaScript's
`|| null` treats the empty-string id as falsy). -/
theorem planner_null_from_counterexample :
    planMoves [SidebarRule.keywordRule "s2" (some "")]
        [⟨"", "A", ["c1"]⟩, ⟨"s2", "B", []⟩] [⟨"c1", "chan"⟩] =
      [{ channelId := "c1", fromSidebarSectionId := none,
         toSidebarSectionId := "s2" }] ∧
    (SidebarSection.mk "" "A" ["c1"]).includesChannel "c1" = true ∧
    (SidebarSection.mk "" "A" ["c1"]) ∈
      ([⟨"", "A", ["c1"]⟩, ⟨"s2", "B", []⟩] : List SidebarSection) := by
  exact ⟨by decide, by decide, by decide⟩

-- ============================================================================
-- C6: rate limiter
-- ============================================================================

lemma waitGo_enter (limit intervalMs : Nat) (ts : List Nat) (now : Nat)
    (h : ts.length < limit) :
    waitGo limit intervalMs ts now = (now, ts ++ [now]) := by
  rw [waitGo.eq_def]
  rw [if_pos h]

lemma waitGo_retry (limit intervalMs t : Nat) (rest : List Nat) (now : Nat)
    (h : ¬ (t :: rest).length < limit) :
    waitGo limit intervalMs (t :: rest) now =
      waitGo limit intervalMs
        (pruneTimestamps (t :: rest) (t + intervalMs) intervalMs)
        (t + intervalMs) := by
  rw [waitGo.eq_def]
  rw [if_neg h]

lemma waitGo_ge (limit intervalMs : Nat) :
    ∀ (n : Nat) (ts : List Nat) (now : Nat), ts.length ≤ n →
      (∀ t ∈ ts, now - t < intervalMs) →
      now ≤ (waitGo limit intervalMs ts now).1 := by
  intro n
  induction n with
  | zero =>
    intro ts now hlen _
    have hts : ts = [] := List.length_eq_zero.mp (Nat.le_zero.mp hlen)
    subst hts
    rw [waitGo.eq_def]
    split <;> simp
  | succ n ihn =>
    intro ts now hlen hinv
    by_cases h : ts.length < limit
    · rw [waitGo_enter _ _ _ _ h]
    · cases ts with
      | nil =>
        rw [waitGo.eq_def]
        split <;> simp
      | cons t rest =>
        rw [waitGo_retry _ _ _ _ _ h]
        have hwake : now ≤ t + intervalMs := by
          have := hinv t (List.mem_cons_self t rest)
          omega
        have hdrop : pruneTimestamps (t :: rest) (t + intervalMs) intervalMs =
            pruneTimestamps rest (t + intervalMs) intervalMs := by
          have hne : ¬ (t + intervalMs - t < intervalMs) := by omega
          simp [pruneTimestamps, List.filter_cons, hne]
        have hlen2 :
            (pruneTimestamps (t :: rest) (t + intervalMs) intervalMs).length ≤ n := by
          rw [hdrop]
          have hf := List.length_filter_le
            (fun x => decide (t + intervalMs - x < intervalMs)) rest
          have hr : rest.length ≤ n := by
            simp only [List.length_cons] at hlen
            omega
          calc (pruneTimestamps rest (t + intervalMs) intervalMs).length
              ≤ rest.length := hf
            _ ≤ n := hr
        have hinv2 : ∀ x ∈ pruneTimestamps (t :: rest) (t + intervalMs) intervalMs,
            (t + intervalMs) - x < intervalMs := by
          intro x hx
          have := List.mem_filter.mp hx
          simpa using this.2
        exact le_trans hwake (ihn _ _ hlen2 hinv2)

lemma rateLimiterWait_ge (limit intervalMs : Nat) (ts : List Nat) (now : Nat) :
    now ≤ (rateLimiterWait limit intervalMs ts now).1 := by
  apply waitGo_ge limit intervalMs (pruneTimestamps ts now intervalMs).length _ _
    le_rfl
  intro t ht
  have := List.mem_filter.mp ht
  simpa using this.2

lemma serveQueue_ge (limit intervalMs : Nat) :
    ∀ (arrivals ts : List Nat) (clock x : Nat),
      x ∈ serveQueue limit intervalMs ts arrivals clock → clock ≤ x := by
  intro arrivals
  induction arrivals with
  | nil => intro ts clock x hx; simp [serveQueue] at hx
  | cons a rest ih =>
    intro ts clock x hx
    simp only [serveQueue] at hx
    rcases List.mem_cons.mp hx with rfl | hx2
    · calc clock ≤ max a clock := le_max_right a clock
        _ ≤ _ := rateLimiterWait_ge limit intervalMs ts (max a clock)
    · have h1 : clock ≤ (rateLimiterWait limit intervalMs ts (max a clock)).1 :=
        le_trans (le_max_right a clock)
          (rateLimiterWait_ge limit intervalMs ts (max a clock))
      exact le_trans h1 (ih _ _ x hx2)

/-- C6: RateLimiter.wait prunes timestamps older than the interval and
admits immediately, recording a new timestamp, when fewer than the limit
remain; otherwise it suspends until the oldest retained timestamp expires
and re-evaluates. Queued waiting callers (modelled in FIFO timer-queue
order) are admitted in the order they began waiting, at nondecreasing
admission times; a RateLimiter(2, 1000) admits two calls at time 0
immediately and completes the third exactly when 1000ms have elapsed
since the first call's window start. -/
theorem rate_limiter_behaviour :
    (∀ (limit intervalMs : Nat) (ts : List Nat) (now : Nat),
        (pruneTimestamps ts now intervalMs).length < limit →
        rateLimiterWait limit intervalMs ts now =
          (now, pruneTimestamps ts now intervalMs ++ [now])) ∧
    (∀ (limit intervalMs : Nat) (ts : List Nat) (now t : Nat) (rest : List Nat),
        pruneTimestamps ts now intervalMs = t :: rest →
        ¬ (t :: rest).length < limit →
        rateLimiterWait limit intervalMs ts now =
          waitGo limit intervalMs
            (pruneTimestamps (t :: rest) (t + intervalMs) intervalMs)
            (t + intervalMs)) ∧
    (∀ (limit intervalMs : Nat) (ts arrivals : List Nat) (clock : Nat),
        List.Pairwise (· ≤ ·) (serveQueue limit intervalMs ts arrivals clock)) ∧
    serveQueue 2 1000 [] [0, 0, 0] 0 = [0, 0, 1000] := by
  have w1 : rateLimiterWait 2 1000 [] 0 = (0, [0]) := by
    rw [rateLimiterWait, show pruneTimestamps [] 0 1000 = [] from rfl,
      waitGo_enter 2 1000 [] 0 (by decide)]
    rfl
  have w2 : rateLimiterWait 2 1000 [0] 0 = (0, [0, 0]) := by
    rw [rateLimiterWait, show pruneTimestamps [0] 0 1000 = [0] from rfl,
      waitGo_enter 2 1000 [0] 0 (by decide)]
    rfl
  have w3 : rateLimiterWait 2 1000 [0, 0] 0 = (1000, [1000]) := by
    rw [rateLimiterWait, show pruneTimestamps [0, 0] 0 1000 = [0, 0] from rfl,
      waitGo_retry 2 1000 0 [0] 0 (by decide),
      show pruneTimestamps [0, 0] (0 + 1000) 1000 = [] from rfl,
      waitGo_enter 2 1000 [] (0 + 1000) (by decide)]
    rfl
  refine ⟨?_, ?_, ?_, ?_⟩
  · intro limit intervalMs ts now h
    rw [rateLimiterWait, waitGo_enter _ _ _ _ h]
  · intro limit intervalMs ts now t rest hpr h
    rw [rateLimiterWait, hpr, waitGo_retry _ _ _ _ _ h]
  · intro limit intervalMs ts arrivals clock
    induction arrivals generalizing ts clock with
    | nil => simp [serveQueue]
    | cons a rest ih =>
      simp only [serveQueue]
      refine List.Pairwise.cons ?_ (ih _ _)
      intro y hy
      exact serveQueue_ge limit intervalMs rest _ _ y hy
  · simp [serveQueue, Nat.max_self, w1, w2, w3]

/-- Witness for C6: a call below the limit is admitted immediately and
recorded. -/
theorem rate_limiter_behaviour_witness :
    rateLimiterWait 3 1000 [] 5 = (5, [5]) :=
  rate_limiter_behaviour.1 3 1000 [] 5 (by decide)

-- ============================================================================
-- C5: findOverflowSections
-- ============================================================================

lemma insertByKey_perm (key : SidebarSection → Nat) (s : SidebarSection) :
    ∀ l : List SidebarSection, (insertByKey key s l).Perm (s :: l) := by
  intro l
  induction l with
  | nil => simp [insertByKey]
  | cons t ts ih =>
    by_cases h : key s ≤ key t
    · simp [insertByKey, h]
    · rw [insertByKey, if_neg h]
      exact List.Perm.trans (List.Perm.cons t ih) (List.Perm.swap s t ts)

lemma insertByKey_pairwise (key : SidebarSection → Nat) (s : SidebarSection) :
    ∀ l : List SidebarSection,
      List.Pairwise (fun a b => key a ≤ key b) l →
      List.Pairwise (fun a b => key a ≤ key b) (insertByKey key s l) := by
  intro l
  induction l with
  | nil => intro _; simp [insertByKey]
  | cons t ts ih =>
    intro h
    by_cases hle : key s ≤ key t
    · rw [insertByKey, if_pos hle]
      refine List.Pairwise.cons ?_ h
      intro y hy
      rcases List.mem_cons.mp hy with rfl | hy2
      · exact hle
      · exact le_trans hle (List.rel_of_pairwise_cons h hy2)
    · rw [insertByKey, if_neg hle]
      have hts : key t ≤ key s := le_of_not_le hle
      refine List.Pairwise.cons ?_ (ih (List.Pairwise.of_cons h))
      intro y hy
      have hy2 := (insertByKey_perm key s ts).mem_iff.mp hy
      rcases List.mem_cons.mp hy2 with rfl | hy3
      · exact hts
      · exact List.rel_of_pairwise_cons h hy3

lemma sortByKey_perm (key : SidebarSection → Nat) :
    ∀ l : List SidebarSection, (sortByKey key l).Perm l := by
  intro l
  induction l with
  | nil => simp [sortByKey]
  | cons s ss ih =>
    exact List.Perm.trans (insertByKey_perm key s (sortByKey key ss))
      (List.Perm.cons s ih)

lemma sortByKey_pairwise (key : SidebarSection → Nat) :
    ∀ l : List SidebarSection,
      List.Pairwise (fun a b => key a ≤ key b) (sortByKey key l) := by
  intro l
  induction l with
  | nil => simp [sortByKey]
  | cons s ss ih => exact insertByKey_pairwise key s (sortByKey key ss) ih

lemma parseOverflowNumber_isSome_iff (baseName name : String) :
    (parseOverflowNumber baseName name).isSome = true ↔
      ∃ ds : List Char, ds ≠ [] ∧ (∀ c ∈ ds, c.isDigit = true) ∧
        name.data = baseName.data ++ ' ' :: '(' :: (ds ++ [')']) := by
  constructor
  · intro h
    unfold parseOverflowNumber at h
    by_cases hp : (baseName.data ++ [' ', '(']).isPrefixOf name.data
    case neg => rw [if_neg hp] at h; simp at h
    case pos =>
      rw [if_pos hp] at h
      have hsplit := List.prefix_iff_eq_append.mp (List.isPrefixOf_iff_prefix.mp hp)
      by_cases hlast :
          (name.data.drop (baseName.data ++ [' ', '(']).length).getLast? = some ')'
      case neg => rw [if_neg hlast] at h; simp at h
      case pos =>
        rw [if_pos hlast] at h
        by_cases hds : (name.data.drop (baseName.data ++ [' ', '(']).length).dropLast ≠ []
            ∧ ((name.data.drop (baseName.data ++ [' ', '(']).length).dropLast).all
              Char.isDigit
        case neg => rw [if_neg hds] at h; simp at h
        case pos =>
          obtain ⟨hne, hdig⟩ := hds
          refine ⟨(name.data.drop (baseName.data ++ [' ', '(']).length).dropLast,
            hne, ?_, ?_⟩
          · intro c hc
            exact List.all_eq_true.mp hdig c hc
          · have hrestne :
                name.data.drop (baseName.data ++ [' ', '(']).length ≠ [] := by
              intro he
              rw [he] at hlast
              simp at hlast
            have hlastc := List.getLast?_eq_getLast _ hrestne
            rw [hlastc] at hlast
            have hlastv := Option.some.inj hlast
            have hrest := List.dropLast_append_getLast hrestne
            rw [hlastv] at hrest
            calc name.data
                = baseName.data ++ [' ', '('] ++
                    name.data.drop (baseName.data ++ [' ', '(']).length := hsplit.symm
              _ = baseName.data ++ [' ', '('] ++
                    ((name.data.drop (baseName.data ++ [' ', '(']).length).dropLast
                      ++ [')']) := by rw [hrest]
              _ = baseName.data ++ ' ' :: '(' ::
                    ((name.data.drop (baseName.data ++ [' ', '(']).length).dropLast
                      ++ [')']) := by simp
  · rintro ⟨ds, hne, hdig, hshape⟩
    have hpre : (baseName.data ++ [' ', '(']).isPrefixOf name.data = true := by
      rw [List.isPrefixOf_iff_prefix, hshape]
      refine ⟨ds ++ [')'], ?_⟩
      simp
    have hdrop : name.data.drop (baseName.data ++ [' ', '(']).length = ds ++ [')'] := by
      conv_lhs => rw [hshape]
      rw [show baseName.data ++ ' ' :: '(' :: (ds ++ [')'])
          = (baseName.data ++ [' ', '(']) ++ (ds ++ [')']) by simp]
      exact List.drop_left _ _
    unfold parseOverflowNumber
    rw [if_pos hpre, hdrop]
    rw [if_pos (by simp)]
    rw [if_pos ⟨by simpa [List.dropLast_concat] using hne, by
      rw [List.dropLast_concat]
      exact List.all_eq_true.mpr hdig⟩]
    simp

/-- C5 (spec-modelled): findOverflowSections returns exactly the sections
whose name is the literal base name, a space and a parenthesised nonempty
run of decimal digits (so neither the section literally named baseName nor
any malformed or non-numeric suffix qualifies), ordered ascending by the
parsed numeric suffix; on the Alerts example the order is 2, 5, 10 and
"Alerts (abc)" is excluded. -/
theorem findOverflowSections_spec :
    (∀ (baseName name : String),
        (parseOverflowNumber baseName name).isSome = true ↔
          ∃ ds : List Char, ds ≠ [] ∧ (∀ c ∈ ds, c.isDigit = true) ∧
            name.data = baseName.data ++ ' ' :: '(' :: (ds ++ [')'])) ∧
    (∀ (baseName : String) (sections : List SidebarSection) (s : SidebarSection),
        s ∈ findOverflowSections baseName sections ↔
          s ∈ sections ∧ (parseOverflowNumber baseName s.name).isSome = true) ∧
    (∀ (baseName : String) (sections : List SidebarSection) (s : SidebarSection),
        s ∈ findOverflowSections baseName sections → s.name ≠ baseName) ∧
    (∀ (baseName : String) (sections : List SidebarSection),
        List.Pairwise (fun a b => (parseOverflowNumber baseName a.name).getD 0 ≤
            (parseOverflowNumber baseName b.name).getD 0)
          (findOverflowSections baseName sections)) ∧
    (findOverflowSections "Alerts"
        [⟨"s5", "Alerts (5)", []⟩, ⟨"s2", "Alerts (2)", []⟩,
         ⟨"s10", "Alerts (10)", []⟩, ⟨"sx", "Alerts (abc)", []⟩]).map
      SidebarSection.id = ["s2", "s5", "s10"] := by
  have hmem : ∀ (baseName : String) (sections : List SidebarSection)
      (s : SidebarSection),
      s ∈ findOverflowSections baseName sections ↔
        s ∈ sections ∧ (parseOverflowNumber baseName s.name).isSome = true := by
    intro baseName sections s
    rw [findOverflowSections,
      (sortByKey_perm (fun s => (parseOverflowNumber baseName s.name).getD 0)
        _).mem_iff,
      List.mem_filter]
  refine ⟨parseOverflowNumber_isSome_iff, hmem, ?_, ?_, by decide⟩
  · intro baseName sections s hs heq
    have hsome := ((hmem baseName sections s).mp hs).2
    obtain ⟨ds, hne, _, hshape⟩ :=
      (parseOverflowNumber_isSome_iff baseName s.name).mp hsome
    rw [heq] at hshape
    have hlen := congrArg List.length hshape
    simp [List.length_append] at hlen
  · intro baseName sections
    exact sortByKey_pairwise _ _

/-- Witness for C5: the name "Alerts (2)" matches the base name Alerts
with digit run "2". -/
theorem findOverflowSections_spec_witness :
    ∃ ds : List Char, ds ≠ [] ∧ (∀ c ∈ ds, c.isDigit = true) ∧
      ("Alerts (2)" : String).data =
        ("Alerts" : String).data ++ ' ' :: '(' :: (ds ++ [')']) :=
  (findOverflowSections_spec.1 "Alerts" "Alerts (2)").mp (by decide)

-- ============================================================================
-- C1: distributor
-- ============================================================================

lemma assignMove_none_iff (caps : List (SidebarSection × Nat)) :
    assignMove caps = none ↔ ∀ p ∈ caps, p.2 = 0 := by
  induction caps with
  | nil => simp [assignMove]
  | cons p rest ih =>
    obtain ⟨s, c⟩ := p
    by_cases hc : 0 < c
    · rw [assignMove, if_pos hc]
      constructor
      · intro h; cases h
      · intro h
        have := h (s, c) (List.mem_cons_self _ _)
        simp at this
        omega
    · have hc0 : c = 0 := by omega
      subst hc0
      rw [assignMove, if_neg hc]
      rw [Option.map_eq_none']
      rw [ih]
      constructor
      · intro h p hp
        rcases List.mem_cons.mp hp with rfl | hp2
        · rfl
        · exact h p hp2
      · intro h p hp
        exact h p (List.mem_cons_of_mem _ hp)

lemma assignMove_some_spec :
    ∀ (caps : List (SidebarSection × Nat)) (j : Nat) (sid : String)
      (caps2 : List (SidebarSection × Nat)),
      assignMove caps = some (j, sid, caps2) →
      ∃ s c, caps[j]? = some (s, c) ∧ 0 < c ∧ sid = s.id ∧
        caps2 = caps.set j (s, c - 1) ∧
        ∀ i < j, ∃ q, caps[i]? = some q ∧ q.2 = 0 := by
  intro caps
  induction caps with
  | nil => intro j sid caps2 h; simp [assignMove] at h
  | cons p rest ih =>
    obtain ⟨s, c⟩ := p
    intro j sid caps2 h
    by_cases hc : 0 < c
    · rw [assignMove, if_pos hc] at h
      obtain ⟨h1, h2, h3⟩ : j = 0 ∧ sid = s.id ∧ caps2 = (s, c - 1) :: rest := by
        have := Option.some.inj h
        exact ⟨(congrArg Prod.fst this).symm,
          (congrArg (fun x => x.2.1) this).symm,
          (congrArg (fun x => x.2.2) this).symm⟩
      subst h1; subst h2; subst h3
      exact ⟨s, c, by simp, hc, rfl, rfl, by omega⟩
    · rw [assignMove, if_neg hc] at h
      rw [Option.map_eq_some'] at h
      obtain ⟨r, hr, hre⟩ := h
      obtain ⟨j', sid', caps2'⟩ := r
      obtain ⟨h1, h2, h3⟩ : j' + 1 = j ∧ sid' = sid ∧ (s, c) :: caps2' = caps2 := by
        exact ⟨congrArg Prod.fst hre,
          congrArg (fun x => x.2.1) hre,
          congrArg (fun x => x.2.2) hre⟩
      subst h1; subst h2; subst h3
      obtain ⟨s', c', hget, hpos, hsid, hset, hearlier⟩ := ih j' sid' caps2' hr
      refine ⟨s', c', by simpa using hget, hpos, hsid, by simp [hset], ?_⟩
      intro i hi
      cases i with
      | zero =>
        refine ⟨(s, c), by simp, ?_⟩
        simp
        omega
      | succ i' =>
        have : i' < j' := by omega
        obtain ⟨q, hq, hq0⟩ := hearlier i' this
        exact ⟨q, by simpa using hq, hq0⟩

lemma distributeFull_lengths (moves : List SidebarMove) :
    ∀ caps : List (SidebarSection × Nat),
      (distributeFull moves caps).1.length = moves.length ∧
      (distributeFull moves caps).2.1.length = moves.length ∧
      (distributeFull moves caps).2.2.length = caps.length := by
  induction moves with
  | nil => intro caps; simp [distributeFull]
  | cons m ms ih =>
    intro caps
    cases ha : assignMove caps with
    | none =>
      have := ih caps
      simp [distributeFull, ha, this.1, this.2.1, this.2.2]
    | some r =>
      obtain ⟨j, sid, caps2⟩ := r
      have h2 := ih caps2
      obtain ⟨s, c, hget, hpos, hsid, hset, _⟩ :=
        assignMove_some_spec caps j sid caps2 ha
      have hlen2 : caps2.length = caps.length := by
        rw [hset]; exact List.length_set caps j _
      simp [distributeFull, ha, h2.1, h2.2.1, h2.2.2, hlen2]

lemma distributeFull_acct (moves : List SidebarMove) :
    ∀ (caps : List (SidebarSection × Nat)) (j : Nat) (q : SidebarSection × Nat),
      caps[j]? = some q →
      ∃ q', (distributeFull moves caps).2.2[j]? = some q' ∧ q'.1 = q.1 ∧
        q.2 = q'.2 + (distributeFull moves caps).2.1.count (some j) := by
  induction moves with
  | nil =>
    intro caps j q hq
    exact ⟨q, by simpa [distributeFull] using hq, rfl, by simp [distributeFull]⟩
  | cons m ms ih =>
    intro caps j q hq
    cases ha : assignMove caps with
    | none =>
      obtain ⟨q', hq', hfst, hcount⟩ := ih caps j q hq
      refine ⟨q', by simpa [distributeFull, ha] using hq', hfst, ?_⟩
      simp only [distributeFull, ha]
      simpa [List.count_cons] using hcount
    | some r =>
      obtain ⟨i, sid, caps2⟩ := r
      obtain ⟨s, c, hget, hpos, hsid, hset, _⟩ :=
        assignMove_some_spec caps i sid caps2 ha
      have hilt : i < caps.length := (List.getElem?_eq_some.mp hget).1
      by_cases hij : j = i
      · subst hij
        have hq2 : caps2[j]? = some (s, c - 1) := by
          rw [hset]
          exact List.getElem?_set_self hilt
        obtain ⟨q', hq', hfst, hcount⟩ := ih caps2 j (s, c - 1) hq2
        have hqv : q = (s, c) := by
          rw [hget] at hq
          exact (Option.some.inj hq).symm
        refine ⟨q', by simpa [distributeFull, ha] using hq', by simp [hfst, hqv], ?_⟩
        simp only [distributeFull, ha]
        simp only [List.count_cons, beq_self_eq_true, if_pos rfl]
        have : c - 1 = q'.2 + (distributeFull ms caps2).2.1.count (some j) := by
          simpa using hcount
        simp [hqv]
        omega
      · have hq2 : caps2[j]? = some q := by
          rw [hset]
          rw [List.getElem?_set_ne (fun he => hij he.symm)]
          exact hq
        obtain ⟨q', hq', hfst, hcount⟩ := ih caps2 j q hq2
        refine ⟨q', by simpa [distributeFull, ha] using hq', hfst, ?_⟩
        simp only [distributeFull, ha]
        have hne : ((some i : Option Nat) == some j) = false := by
          simp
          exact fun he => hij he.symm
        simpa [List.count_cons, hne] using hcount

lemma distributeFull_fill (moves : List SidebarMove) :
    ∀ (caps : List (SidebarSection × Nat)) (i : Nat),
      some i ∈ (distributeFull moves caps).2.1 →
      ∀ j, j < i →
      ∃ q', (distributeFull moves caps).2.2[j]? = some q' ∧ q'.2 = 0 := by
  induction moves with
  | nil => intro caps i hi; simp [distributeFull] at hi
  | cons m ms ih =>
    intro caps i hi j hj
    cases ha : assignMove caps with
    | none =>
      rw [show (distributeFull (m :: ms) caps).2.1
          = none :: (distributeFull ms caps).2.1 by simp [distributeFull, ha]] at hi
      rcases List.mem_cons.mp hi with he | hi2
      · cases he
      · have := ih caps i hi2 j hj
        simpa [distributeFull, ha] using this
    | some r =>
      obtain ⟨i0, sid, caps2⟩ := r
      obtain ⟨s, c, hget, hpos, hsid, hset, hearlier⟩ :=
        assignMove_some_spec caps i0 sid caps2 ha
      rw [show (distributeFull (m :: ms) caps).2.1
          = some i0 :: (distributeFull ms caps2).2.1
          by simp [distributeFull, ha]] at hi
      have hcaps2 : (distributeFull (m :: ms) caps).2.2
          = (distributeFull ms caps2).2.2 := by simp [distributeFull, ha]
      rcases List.mem_cons.mp hi with he | hi2
      · have hii : i = i0 := Option.some.inj he
        obtain ⟨q, hq, hq0⟩ := hearlier j (by omega)
        have hjne : j ≠ i0 := by omega
        have hq2 : caps2[j]? = some q := by
          rw [hset, List.getElem?_set_ne (fun he2 => hjne he2.symm)]
          exact hq
        obtain ⟨q', hq', _, hcount⟩ := distributeFull_acct ms caps2 j q hq2
        refine ⟨q', by rw [hcaps2]; exact hq', by omega⟩
      · have := ih caps2 i hi2 j hj
        rw [hcaps2]
        exact this

lemma distributeFull_unchanged (moves : List SidebarMove) :
    ∀ (caps : List (SidebarSection × Nat)) (k : Nat),
      (distributeFull moves caps).2.1[k]? = some none →
      (distributeFull moves caps).1[k]? = moves[k]? := by
  induction moves with
  | nil => intro caps k hk; simp [distributeFull] at hk
  | cons m ms ih =>
    intro caps k hk
    cases ha : assignMove caps with
    | none =>
      cases k with
      | zero => simp [distributeFull, ha]
      | succ k' =>
        have hk2 : (distributeFull ms caps).2.1[k']? = some none := by
          simpa [distributeFull, ha] using hk
        have := ih caps k' hk2
        simpa [distributeFull, ha] using this
    | some r =>
      obtain ⟨i0, sid, caps2⟩ := r
      cases k with
      | zero =>
        rw [show (distributeFull (m :: ms) caps).2.1
            = some i0 :: (distributeFull ms caps2).2.1
            by simp [distributeFull, ha]] at hk
        simp at hk
      | succ k' =>
        have hk2 : (distributeFull ms caps2).2.1[k']? = some none := by
          simpa [distributeFull, ha] using hk
        have := ih caps2 k' hk2
        simpa [distributeFull, ha] using this

lemma distributeFull_allzero (moves : List SidebarMove) :
    ∀ (caps : List (SidebarSection × Nat)) (k : Nat),
      (distributeFull moves caps).2.1[k]? = some none →
      ∀ (j : Nat) (q : SidebarSection × Nat), caps[j]? = some q →
      ∃ q', (distributeFull moves caps).2.2[j]? = some q' ∧ q'.2 = 0 := by
  induction moves with
  | nil => intro caps k hk; simp [distributeFull] at hk
  | cons m ms ih =>
    intro caps k hk j q hq
    cases ha : assignMove caps with
    | none =>
      have hzero : q.2 = 0 :=
        (assignMove_none_iff caps).mp ha q (List.getElem?_mem hq)
      obtain ⟨q', hq', _, hcount⟩ := distributeFull_acct ms caps j q hq
      refine ⟨q', by simpa [distributeFull, ha] using hq', by omega⟩
    | some r =>
      obtain ⟨i0, sid, caps2⟩ := r
      obtain ⟨s, c, hget, hpos, hsid, hset, _⟩ :=
        assignMove_some_spec caps i0 sid caps2 ha
      have hilt : i0 < caps.length := (List.getElem?_eq_some.mp hget).1
      cases k with
      | zero =>
        rw [show (distributeFull (m :: ms) caps).2.1
            = some i0 :: (distributeFull ms caps2).2.1
            by simp [distributeFull, ha]] at hk
        simp at hk
      | succ k' =>
        have hk2 : (distributeFull ms caps2).2.1[k']? = some none := by
          simpa [distributeFull, ha] using hk
        have hq2 : ∃ q2, caps2[j]? = some q2 := by
          by_cases hij : j = i0
          · subst hij
            exact ⟨(s, c - 1), by rw [hset]; exact List.getElem?_set_self hilt⟩
          · exact ⟨q, by rw [hset, List.getElem?_set_ne
              (fun he => hij he.symm)]; exact hq⟩
        obtain ⟨q2, hq2v⟩ := hq2
        have := ih caps2 k' hk2 j q2 hq2v
        simpa [distributeFull, ha] using this

/-- C1 (amended): after distribution over an ordered candidate list
(primary first, then overflow), no section is assigned more moves than its
available capacity — hence, provided a section's existing membership does
not already exceed the 500 limit, assigned moves plus membership stay
within the limit; if any candidate receives a move, every earlier
candidate is assigned exactly its full available capacity (the primary
fills before any overflow section and overflow sections fill in candidate
order); and a move assigned no candidate (tag none) keeps its original
destination unchanged, which happens only when every candidate is fully
assigned. -/
theorem distributor_invariants :
    ∀ (moves : List SidebarMove) (sections : List SidebarSection),
      distributeMovesAcrossSections moves sections =
        (distributeFull moves
          (sections.map (fun s => (s, s.availableCapacity)))).1 ∧
      (∀ (j : Nat) (h : j < sections.length),
        (distributeFull moves
          (sections.map (fun s => (s, s.availableCapacity)))).2.1.count (some j)
          ≤ (sections.get ⟨j, h⟩).availableCapacity) ∧
      (∀ (j : Nat) (h : j < sections.length),
        (sections.get ⟨j, h⟩).channelIds.length ≤ SECTION_CHANNEL_LIMIT →
        (distributeFull moves
          (sections.map (fun s => (s, s.availableCapacity)))).2.1.count (some j)
          + (sections.get ⟨j, h⟩).channelIds.length ≤ SECTION_CHANNEL_LIMIT) ∧
      (∀ (i : Nat),
        some i ∈ (distributeFull moves
          (sections.map (fun s => (s, s.availableCapacity)))).2.1 →
        ∀ (j : Nat) (h : j < sections.length), j < i →
        (distributeFull moves
          (sections.map (fun s => (s, s.availableCapacity)))).2.1.count (some j)
          = (sections.get ⟨j, h⟩).availableCapacity) ∧
      (∀ (k : Nat),
        (distributeFull moves
          (sections.map (fun s => (s, s.availableCapacity)))).2.1[k]? = some none →
        (distributeFull moves
          (sections.map (fun s => (s, s.availableCapacity)))).1[k]? = moves[k]? ∧
        ∀ (j : Nat) (h : j < sections.length),
          (distributeFull moves
            (sections.map (fun s => (s, s.availableCapacity)))).2.1.count (some j)
            = (sections.get ⟨j, h⟩).availableCapacity) := by
  intro moves sections
  have hcaps : ∀ (j : Nat) (h : j < sections.length),
      (sections.map (fun s => (s, s.availableCapacity)))[j]?
        = some (sections.get ⟨j, h⟩, (sections.get ⟨j, h⟩).availableCapacity) := by
    intro j h
    rw [List.getElem?_map, List.getElem?_eq_getElem h]
    rfl
  have hbound : ∀ (j : Nat) (h : j < sections.length),
      (distributeFull moves
        (sections.map (fun s => (s, s.availableCapacity)))).2.1.count (some j)
        ≤ (sections.get ⟨j, h⟩).availableCapacity := by
    intro j h
    obtain ⟨q', _, _, hcount⟩ := distributeFull_acct moves _ j _ (hcaps j h)
    omega
  refine ⟨rfl, hbound, ?_, ?_, ?_⟩
  · intro j h hmem
    have := hbound j h
    have hav : (sections.get ⟨j, h⟩).availableCapacity
        = SECTION_CHANNEL_LIMIT - (sections.get ⟨j, h⟩).channelIds.length := rfl
    omega
  · intro i hi j h hj
    obtain ⟨q', hq', hz⟩ := distributeFull_fill moves _ i hi j hj
    obtain ⟨q'', hq'', _, hcount⟩ := distributeFull_acct moves _ j _ (hcaps j h)
    have : q' = q'' := Option.some.inj (hq'.symm.trans hq'')
    subst this
    simp only at hcount
    omega
  · intro k hk
    refine ⟨distributeFull_unchanged moves _ k hk, ?_⟩
    intro j h
    obtain ⟨q', hq', hz⟩ := distributeFull_allzero moves _ k hk j _ (hcaps j h)
    obtain ⟨q'', hq'', _, hcount⟩ := distributeFull_acct moves _ j _ (hcaps j h)
    have : q' = q'' := Option.some.inj (hq'.symm.trans hq'')
    subst this
    simp only at hcount
    omega

/-- Witness for C1 at the spill scenario of the test suite: one slot left
in the primary, so the primary receives exactly one of three moves. -/
theorem distributor_invariants_witness :
    (distributeFull
        [{ channelId := "ch1", fromSidebarSectionId := none,
           toSidebarSectionId := "s1" },
         { channelId := "ch2", fromSidebarSectionId := none,
           toSidebarSectionId := "s1" },
         { channelId := "ch3", fromSidebarSectionId := none,
           toSidebarSectionId := "s1" }]
        (([⟨"s1", "Test", List.replicate 499 "ch"⟩, ⟨"s2", "Test (2)", []⟩] :
            List SidebarSection).map
          (fun s => (s, s.availableCapacity)))).2.1.count (some 0)
      ≤ (([⟨"s1", "Test", List.replicate 499 "ch"⟩, ⟨"s2", "Test (2)", []⟩] :
          List SidebarSection).get ⟨0, by decide⟩).availableCapacity :=
  (distributor_invariants _ _).2.1 0 (by decide)

set_option maxRecDepth 4000 in
/-- Counterexample to C1 as stated: a section whose snapshot membership
already exceeds the 500 limit has zero available capacity, so the single
move is left unchanged (tag none, zero moves assigned), yet
assigned-move-count plus existing membership (501) exceeds the limit. -/
theorem distributor_overfull_counterexample :
    distributeMovesAcrossSections
        [{ channelId := "c", fromSidebarSectionId := none,
           toSidebarSectionId := "s1" }]
        [⟨"s1", "Big", List.replicate 501 "x"⟩] =
      [{ channelId := "c", fromSidebarSectionId := none,
         toSidebarSectionId := "s1" }] ∧
    (distributeFull
        [{ channelId := "c", fromSidebarSectionId := none,
           toSidebarSectionId := "s1" }]
        (([⟨"s1", "Big", List.replicate 501 "x"⟩] : List SidebarSection).map
          (fun s => (s, s.availableCapacity)))).2.1 = [none] ∧
    SECTION_CHANNEL_LIMIT <
      (distributeFull
          [{ channelId := "c", fromSidebarSectionId := none,
             toSidebarSectionId := "s1" }]
          (([⟨"s1", "Big", List.replicate 501 "x"⟩] : List SidebarSection).map
            (fun s => (s, s.availableCapacity)))).2.1.count (some 0) +
        (SidebarSection.mk "s1" "Big" (List.replicate 501 "x")).channelIds.length := by
  have hcap : (SidebarSection.mk "s1" "Big"
      (List.replicate 501 "x")).availableCapacity = 0 := by
    show SECTION_CHANNEL_LIMIT - (List.replicate 501 "x").length = 0
    rw [List.length_replicate]
    rfl
  have hmap : (([⟨"s1", "Big", List.replicate 501 "x"⟩] : List SidebarSection).map
      (fun s => (s, s.availableCapacity)))
      = [(⟨"s1", "Big", List.replicate 501 "x"⟩, 0)] := by
    rw [List.map_cons, List.map_nil, hcap]
  have hfull : (distributeFull
      [{ channelId := "c", fromSidebarSectionId := none,
         toSidebarSectionId := "s1" }]
      (([⟨"s1", "Big", List.replicate 501 "x"⟩] : List SidebarSection).map
        (fun s => (s, s.availableCapacity))))
      = ([{ channelId := "c", fromSidebarSectionId := none,
            toSidebarSectionId := "s1" }], [none],
         [(⟨"s1", "Big", List.replicate 501 "x"⟩, 0)]) := by
    rw [hmap]
    rfl
  have hproj : distributeMovesAcrossSections
      [{ channelId := "c", fromSidebarSectionId := none,
         toSidebarSectionId := "s1" }]
      [⟨"s1", "Big", List.replicate 501 "x"⟩]
      = (distributeFull
        [{ channelId := "c", fromSidebarSectionId := none,
           toSidebarSectionId := "s1" }]
        (([⟨"s1", "Big", List.replicate 501 "x"⟩] : List SidebarSection).map
          (fun s => (s, s.availableCapacity)))).1 := rfl
  have hlen : (SidebarSection.mk "s1" "Big"
      (List.replicate 501 "x")).channelIds = List.replicate 501 "x" := rfl
  refine ⟨?_, ?_, ?_⟩
  · rw [hproj, hfull]
  · rw [hfull]
  · rw [hfull, hlen, List.length_replicate]
    decide

end SidebarOrganiser
